import Mathlib

/-
Verification of the core scheduler of the Vienna Game Job System
(src/GameJobSystem/VEGameJobSystem2.h and src/GameJobSystem/VECoro.h).

The embedding is sequential: machine pointers become `Option Nat` ids,
`std::atomic<int>` counters become `Int`, intrusive queues become Lean
lists with the head of the list as the head of the linked list, and the
side effects of a routine are made explicit by returning the new state
together with an event trace where the ordering of actions matters.
-/

/-- The stored callable body of a Job (`std::function<void(void)> m_function`).
`FnVal.empty` stands for the empty lambda installed by the constructor default
and by `reset()`; `FnVal.fn id` stands for a user callable. -/
inductive FnVal
  | empty
  | fn (id : Nat)
deriving DecidableEq, Repr

/-- A `vgjs::Job` (VEGameJobSystem2.h lines 45-92): the fields of `Job_base`
(`m_next`, `m_children`, `m_parent`, `m_thread_index`) plus the `Job` fields
(`m_continuation`, `m_function`). Pointers are modelled as optional node ids. -/
structure Job where
  next : Option Nat
  parent : Option Nat
  threadIndex : Int
  continuation : Option Nat
  function : FnVal
  children : Int
deriving DecidableEq, Repr

/-- `Job::reset` (VEGameJobSystem2.h lines 71-77): wipes `m_next`, `m_parent`,
`m_thread_index`, `m_continuation`, `m_function`; it does not touch `m_children`. -/
def Job.reset (j : Job) : Job :=
  { j with next := none, parent := none, threadIndex := -1,
           continuation := none, function := FnVal.empty }

/-- `Job::resume` (VEGameJobSystem2.h lines 79-87). The stored body is opaque
in the source (`m_function()`), so its effect on the job's shared state is a
parameter `run`: the body may for instance schedule children, which raises this
job's `children` counter. `resume` sets `m_children = 1`, calls the body, then
`fetch_sub(1)`; the returned Bool records whether `on_finished()` ran inline
(the `num == 1` test on the value before the decrement). -/
def Job.resume (run : FnVal → Job → Job) (j : Job) : Job × Bool :=
  let j1 := { j with children := 1 }
  let j2 := run j1.function j1
  let num := j2.children
  ({ j2 with children := num - 1 }, num == 1)

/-- The counter step of `Job::child_finished` (VEGameJobSystem2.h lines
398-403): `fetch_sub(1)` on `m_children`, and `on_finished()` fires exactly
when the value before the decrement was 1. Returns the new counter value and
whether `on_finished()` fired. The tail of `Job::resume` (lines 82-85) performs
the same decrement-and-test. -/
def Job.child_finished (c : Int) : Int × Bool :=
  (c - 1, c == 1)

/-- One linearized operation on a job's `m_children` counter: `inc` is a
`fetch_add`/`++` by a scheduler handing the job a new child, `dec` is one of
the two `fetch_sub(1)` sites (the tail of `Job::resume`, or a child's call to
`Job::child_finished`). -/
inductive CounterOp
  | inc
  | dec
deriving DecidableEq, Repr

/-- Effect of one counter operation on the `m_children` value. -/
def applyOp (c : Int) : CounterOp → Int
  | CounterOp.inc => c + 1
  | CounterOp.dec => (Job.child_finished c).1

/-- Counter value after a linearized sequence of operations. -/
def runOps (c : Int) (ops : List CounterOp) : Int :=
  ops.foldl applyOp c

/-- Number of operations in the sequence at which `on_finished` fires, i.e.
decrements that observe the value 1 (the `num == 1` test shared by
`Job::resume` and `Job::child_finished`). -/
def fireCount : Int → List CounterOp → Nat
  | _, [] => 0
  | c, op :: rest =>
    (match op with
     | CounterOp.inc => 0
     | CounterOp.dec => if (Job.child_finished c).2 then 1 else 0)
    + fireCount (applyOp c op) rest

/-- The increment-guard discipline of the scheduler (spec I1/I3): a child is
handed to the counter only while the job is still live, i.e. every `inc`
happens at a counter value of at least 1 (the job itself counts as one child
of its own counter while its body has not completed). -/
def incsGuarded : Int → List CounterOp → Bool
  | _, [] => true
  | c, op :: rest =>
    (match op with
     | CounterOp.inc => decide (1 ≤ c)
     | CounterOp.dec => true)
    && incsGuarded (applyOp c op) rest

lemma runOps_nil (c : Int) : runOps c [] = c := rfl

lemma runOps_cons (c : Int) (op : CounterOp) (ops : List CounterOp) :
    runOps c (op :: ops) = runOps (applyOp c op) ops := rfl

/-- Once the counter is at or below 0, a guarded sequence can only decrement:
the final value drops by exactly the number of remaining operations. -/
lemma runOps_nonpos (ops : List CounterOp) : ∀ c : Int, c ≤ 0 →
    incsGuarded c ops = true → runOps c ops = c - ops.length := by
  induction ops with
  | nil => intro c _ _; simp [runOps]
  | cons op rest ih =>
    intro c hc hg
    cases op with
    | inc =>
      exfalso
      simp only [incsGuarded, Bool.and_eq_true, decide_eq_true_eq] at hg
      omega
    | dec =>
      simp only [incsGuarded, Bool.and_eq_true] at hg
      rw [runOps_cons]
      have := ih (applyOp c CounterOp.dec) (by simp [applyOp, Job.child_finished]; omega) hg.2
      simp only [applyOp, Job.child_finished] at this ⊢
      rw [this]
      simp
      omega

/-- C1. Single completion: starting from any live counter value (at least 1),
for every linearized sequence of counter operations in which increments only
happen while the job is live and which drives the counter to 0, `on_finished`
fires exactly once — at the final operation, a decrement that takes the
counter from 1 to 0 (either the decrement at the tail of `Job::resume` or a
child's `Job::child_finished`); no earlier operation fires. -/
theorem job_on_finished_fires_exactly_once (c0 : Int) (ops : List CounterOp)
    (hlive : 1 ≤ c0) (hg : incsGuarded c0 ops = true) (hzero : runOps c0 ops = 0) :
    fireCount c0 ops = 1 ∧
    ∃ pre, ops = pre ++ [CounterOp.dec] ∧ runOps c0 pre = 1 ∧ fireCount c0 pre = 0 := by
  induction ops generalizing c0 with
  | nil =>
    exfalso
    rw [runOps_nil] at hzero
    omega
  | cons op rest ih =>
    cases op with
    | inc =>
      simp only [incsGuarded, Bool.and_eq_true, decide_eq_true_eq] at hg
      rw [runOps_cons] at hzero
      simp only [applyOp] at hzero
      obtain ⟨hfc, pre, hpre, hrun, hfc0⟩ := ih (c0 + 1) (by omega) hg.2 hzero
      refine ⟨?_, CounterOp.inc :: pre, by rw [hpre]; rfl, ?_, ?_⟩
      · simp only [fireCount, applyOp]
        omega
      · rw [runOps_cons]; simpa [applyOp] using hrun
      · simp only [fireCount, applyOp]
        omega
    | dec =>
      simp only [incsGuarded, Bool.and_eq_true, true_and] at hg
      rw [runOps_cons] at hzero
      simp only [applyOp, Job.child_finished] at hzero
      by_cases h1 : c0 = 1
      · subst h1
        have hrest : rest.length = 0 := by
          have := runOps_nonpos rest (1 - 1) (by omega)
            (by simpa [applyOp, Job.child_finished] using hg)
          omega
        have hrest' : rest = [] := List.length_eq_zero.mp hrest
        subst hrest'
        refine ⟨?_, [], rfl, by simp [runOps], by simp [fireCount]⟩
        simp [fireCount, Job.child_finished, applyOp]
      · have hge : 2 ≤ c0 := by omega
        obtain ⟨hfc, pre, hpre, hrun, hfc0⟩ :=
          ih (c0 - 1) (by omega) (by simpa [applyOp, Job.child_finished] using hg) hzero
        refine ⟨?_, CounterOp.dec :: pre, by rw [hpre]; rfl, ?_, ?_⟩
        · simp only [fireCount, applyOp, Job.child_finished]
          simp only [beq_iff_eq, if_neg h1]
          omega
        · rw [runOps_cons]; simpa [applyOp, Job.child_finished] using hrun
        · simp only [fireCount, applyOp, Job.child_finished]
          simp only [beq_iff_eq, if_neg h1]
          omega

/-- Witness for C1 at a concrete run: counter starts at 1 (set by `resume`),
the body schedules one child (inc to 2), the child finishes (dec to 1), and
the tail of `resume` decrements 1 to 0, firing `on_finished` exactly once. -/
theorem job_on_finished_fires_exactly_once_witness :
    (1 ≤ (1 : Int)) ∧
    incsGuarded 1 [CounterOp.inc, CounterOp.dec, CounterOp.dec] = true ∧
    runOps 1 [CounterOp.inc, CounterOp.dec, CounterOp.dec] = 0 ∧
    (fireCount 1 [CounterOp.inc, CounterOp.dec, CounterOp.dec] = 1 ∧
     ∃ pre, [CounterOp.inc, CounterOp.dec, CounterOp.dec] = pre ++ [CounterOp.dec] ∧
       runOps 1 pre = 1 ∧ fireCount 1 pre = 0) :=
  ⟨by decide, by decide, by decide,
   job_on_finished_fires_exactly_once 1 [CounterOp.inc, CounterOp.dec, CounterOp.dec]
     (by decide) (by decide) (by decide)⟩

/-- C3. `Job::resume` (VEGameJobSystem2.h lines 79-87) first overwrites the
`children` counter with 1 regardless of its previous value (so the result does
not depend on the counter the job carried in), then invokes the stored body on
the state whose counter is 1, then decrements the counter by one; `on_finished`
runs inline (the returned flag) if and only if that decrement brings the
counter to 0. -/
theorem job_resume_spec (run : FnVal → Job → Job) (j : Job) :
    (∀ c : Int, Job.resume run { j with children := c } = Job.resume run j) ∧
    (Job.resume run j).1.children = (run j.function { j with children := 1 }).children - 1 ∧
    ((Job.resume run j).2 = true ↔ (Job.resume run j).1.children = 0) := by
  refine ⟨fun c => rfl, rfl, ?_⟩
  simp only [Job.resume, beq_iff_eq]
  omega

/-- C10. `Job::reset` (VEGameJobSystem2.h lines 71-77) nulls `m_next`,
`m_parent` and `m_continuation`, sets `m_thread_index` to -1, installs the
empty function as the body, and leaves the `m_children` counter exactly as it
was: recycling does not clear it. -/
theorem job_reset_frame (j : Job) :
    (Job.reset j).next = none ∧
    (Job.reset j).parent = none ∧
    (Job.reset j).threadIndex = -1 ∧
    (Job.reset j).continuation = none ∧
    (Job.reset j).function = FnVal.empty ∧
    (Job.reset j).children = j.children := by
  refine ⟨rfl, rfl, rfl, rfl, rfl, rfl⟩

/-- One observable action of `Job::on_finished` (VEGameJobSystem2.h lines
372-387), in program order: increment the parent's `m_children`, write the
parent into the continuation's `m_parent`, hand the continuation to
`JobSystem::schedule`, call `child_finished()` on the parent, and push this
job's storage onto the recycler. -/
inductive FinEv
  | incParentChildren (p : Nat)
  | setContParent (c : Nat) (p : Nat)
  | schedule (c : Nat)
  | notifyParent (p : Nat)
  | recycle
deriving DecidableEq, Repr

/-- `Job::on_finished` (VEGameJobSystem2.h lines 372-387) as its trace of
actions: if a continuation is present, first (when a parent exists) bump the
parent's counter and set the continuation's parent, then schedule the
continuation; then (when a parent exists) notify the parent via
`child_finished`; finally recycle this job. -/
def Job.on_finished (j : Job) : List FinEv :=
  (match j.continuation with
   | some c =>
     (match j.parent with
      | some p => [FinEv.incParentChildren p, FinEv.setContParent c p]
      | none => []) ++ [FinEv.schedule c]
   | none => []) ++
  (match j.parent with
   | some p => [FinEv.notifyParent p]
   | none => []) ++
  [FinEv.recycle]

/-- C4. Continuation ordering in `Job::on_finished`: whenever a continuation
is present, it is enqueued before the job's storage is recycled, and — when
the job has a parent — the continuation inherits that parent, the parent's
`children` counter is incremented, and the continuation is enqueued, all
strictly before the job notifies its parent via `child_finished`, which in
turn happens strictly before the job is handed to the recycler. -/
theorem job_on_finished_continuation_ordering (j : Job) (c : Nat)
    (hc : j.continuation = some c) :
    ∃ i r, (Job.on_finished j).get? i = some (FinEv.schedule c) ∧
      (Job.on_finished j).get? r = some FinEv.recycle ∧ i < r ∧
      (∀ p, j.parent = some p →
        ∃ a b k, (Job.on_finished j).get? a = some (FinEv.incParentChildren p) ∧
          (Job.on_finished j).get? b = some (FinEv.setContParent c p) ∧
          (Job.on_finished j).get? k = some (FinEv.notifyParent p) ∧
          a < i ∧ b < i ∧ i < k ∧ k < r) := by
  cases hp : j.parent with
  | none =>
    refine ⟨0, 1, ?_, ?_, by omega, ?_⟩
    · simp [Job.on_finished, hc, hp]
    · simp [Job.on_finished, hc, hp]
    · intro p hcontra
      exact absurd hcontra (by simp)
  | some p =>
    refine ⟨2, 4, ?_, ?_, by omega, ?_⟩
    · simp [Job.on_finished, hc, hp]
    · simp [Job.on_finished, hc, hp]
    · intro q hq
      injection hq with h
      subst h
      refine ⟨0, 1, 3, ?_, ?_, ?_, by omega, by omega, by omega, by omega⟩
      · simp [Job.on_finished, hc, hp]
      · simp [Job.on_finished, hc, hp]
      · simp [Job.on_finished, hc, hp]

/-- Witness for C4 on a concrete job: continuation 9 under parent 5. -/
theorem job_on_finished_continuation_ordering_witness :
    ((Job.mk none (some 5) (-1) (some 9) FnVal.empty 0).continuation = some 9) ∧
    (∃ i r,
      (Job.on_finished (Job.mk none (some 5) (-1) (some 9) FnVal.empty 0)).get? i
          = some (FinEv.schedule 9) ∧
      (Job.on_finished (Job.mk none (some 5) (-1) (some 9) FnVal.empty 0)).get? r
          = some FinEv.recycle ∧ i < r ∧
      (∀ p, (Job.mk none (some 5) (-1) (some 9) FnVal.empty 0).parent = some p →
        ∃ a b k,
          (Job.on_finished (Job.mk none (some 5) (-1) (some 9) FnVal.empty 0)).get? a
              = some (FinEv.incParentChildren p) ∧
          (Job.on_finished (Job.mk none (some 5) (-1) (some 9) FnVal.empty 0)).get? b
              = some (FinEv.setContParent 9 p) ∧
          (Job.on_finished (Job.mk none (some 5) (-1) (some 9) FnVal.empty 0)).get? k
              = some (FinEv.notifyParent p) ∧
          a < i ∧ b < i ∧ i < k ∧ k < r)) :=
  ⟨rfl, job_on_finished_continuation_ordering
    (Job.mk none (some 5) (-1) (some 9) FnVal.empty 0) 9 rfl⟩

/-- `JobQueue::push` (VEGameJobSystem2.h lines 134-137): the CAS loop links the
new node in front of the current head, so the queue is a list whose first
element is the most recent push. -/
def JobQueue.push (x : Nat) (q : List Nat) : List Nat :=
  x :: q

/-- The FIFO walk of `JobQueue::pop` (VEGameJobSystem2.h lines 147-156): given
the head node and the rest of the intrusive list (nonempty in the source,
because the walk is entered only when `head->m_next` is not null), walk to the
last node, clear its predecessor's `m_next`, and return the detached last node
together with the remaining list. -/
def JobQueue.popWalk : Nat → List Nat → Nat × List Nat
  | h, [] => (h, [])
  | h, [x] => (x, [h])
  | h, x :: y :: xs =>
    let p := JobQueue.popWalk x (y :: xs)
    (p.1, h :: p.2)

/-- `JobQueue::pop` (VEGameJobSystem2.h lines 143-162) in a sequential run:
an empty queue returns null; in FIFO mode a queue of two or more nodes is
drained from its tail by the walk, while a single node (and every LIFO pop)
is detached from the head by the CAS at line 160. -/
def JobQueue.pop (fifo : Bool) : List Nat → Option Nat × List Nat
  | [] => (none, [])
  | h :: t =>
    if fifo then
      match t with
      | [] => (some h, [])
      | _ :: _ =>
        let p := JobQueue.popWalk h t
        (some p.1, p.2)
    else (some h, t)

/-- The queue built by a sequence of pushes, earliest push first in `ps`. -/
def JobQueue.buildQueue (ps : List Nat) : List Nat :=
  ps.foldl (fun q x => JobQueue.push x q) []

/-- Repeatedly pop a FIFO queue, collecting the returned nodes (fuelled by the
number of pops to perform). -/
def JobQueue.drainFIFO : Nat → List Nat → List Nat
  | 0, _ => []
  | Nat.succ n, q =>
    match JobQueue.pop true q with
    | (none, _) => []
    | (some x, q2) => x :: JobQueue.drainFIFO n q2

lemma popWalk_getLast_dropLast : ∀ (t : List Nat) (h : Nat),
    some (JobQueue.popWalk h t).1 = (h :: t).getLast? ∧
    (JobQueue.popWalk h t).2 = (h :: t).dropLast := by
  intro t
  induction t with
  | nil => intro h; constructor <;> simp [JobQueue.popWalk]
  | cons x xs ih =>
    intro h
    cases xs with
    | nil => constructor <;> simp [JobQueue.popWalk]
    | cons y ys =>
      have hx := ih x
      constructor
      · rw [show JobQueue.popWalk h (x :: y :: ys)
            = ((JobQueue.popWalk x (y :: ys)).1, h :: (JobQueue.popWalk x (y :: ys)).2) from rfl]
        rw [hx.1]
        rfl
      · rw [show JobQueue.popWalk h (x :: y :: ys)
            = ((JobQueue.popWalk x (y :: ys)).1, h :: (JobQueue.popWalk x (y :: ys)).2) from rfl]
        rw [hx.2]
        rfl

lemma pop_fifo_eq (q : List Nat) :
    JobQueue.pop true q = (q.getLast?, q.dropLast) := by
  cases q with
  | nil => rfl
  | cons h t =>
    cases t with
    | nil => rfl
    | cons x xs =>
      have hw := popWalk_getLast_dropLast (x :: xs) h
      simp only [JobQueue.pop, if_pos rfl]
      rw [Prod.ext_iff]
      exact ⟨hw.1, hw.2⟩

lemma buildQueue_eq_reverse : ∀ (ps : List Nat) (acc : List Nat),
    ps.foldl (fun q x => JobQueue.push x q) acc = ps.reverse ++ acc := by
  intro ps
  induction ps with
  | nil => intro acc; simp
  | cons a rest ih =>
    intro acc
    rw [List.foldl_cons]
    rw [ih (JobQueue.push a acc)]
    simp [JobQueue.push]

lemma getLast?_append_singleton (l : List Nat) (a : Nat) :
    (l ++ [a]).getLast? = some a := by
  rw [← List.head?_reverse, List.reverse_append]
  rfl

lemma dropLast_append_singleton (l : List Nat) (a : Nat) :
    (l ++ [a]).dropLast = l := by
  rw [List.dropLast_concat]

/-- C5. FIFO drain order in a sequential run: a FIFO pop detaches and returns
the last element of the intrusive list, which is the earliest-pushed element
still in the queue (pushes prepend); hence repeatedly popping a queue built by
a sequence of pushes returns the elements in push order, while a LIFO pop
returns the most recently pushed element. -/
theorem jobqueue_fifo_drain_order :
    (∀ q : List Nat, JobQueue.pop true q = (q.getLast?, q.dropLast)) ∧
    (∀ ps : List Nat, JobQueue.drainFIFO ps.length (JobQueue.buildQueue ps) = ps) ∧
    (∀ (x : Nat) (q : List Nat), JobQueue.pop false (JobQueue.push x q) = (some x, q)) := by
  refine ⟨pop_fifo_eq, ?_, fun x q => rfl⟩
  intro ps
  induction ps with
  | nil => rfl
  | cons a rest ih =>
    have hbuild : JobQueue.buildQueue (a :: rest) = rest.reverse ++ [a] := by
      simp only [JobQueue.buildQueue]
      rw [buildQueue_eq_reverse (a :: rest) []]
      simp
    have hpop : JobQueue.pop true (JobQueue.buildQueue (a :: rest))
        = (some a, JobQueue.buildQueue rest) := by
      rw [hbuild, pop_fifo_eq]
      rw [getLast?_append_singleton, dropLast_append_singleton]
      have : JobQueue.buildQueue rest = rest.reverse ++ [] := by
        simp only [JobQueue.buildQueue]
        exact buildQueue_eq_reverse rest []
      rw [this]
      simp
    simp only [List.length_cons, JobQueue.drainFIFO, hpop]
    rw [ih]

/-- C9. Pop on empty: in both FIFO and LIFO mode, popping an empty queue
returns null and leaves the queue unchanged. -/
theorem jobqueue_pop_empty (fifo : Bool) :
    JobQueue.pop fifo ([] : List Nat) = (none, []) := rfl

/-- The queues owned by the `JobSystem` (VEGameJobSystem2.h lines 184-185):
one local FIFO inbox per worker (`m_local_queues`, whose length is the worker
count `m_thread_count`) and the central queue `m_central_queue`. -/
structure Queues where
  locals : List (List Nat)
  central : List Nat
deriving DecidableEq, Repr

/-- `JobSystem::schedule(Job_base*)` (VEGameJobSystem2.h lines 323-329): if
the job's `m_thread_index` is at least 0 and strictly below the worker count,
push the job onto that worker's local inbox and return; otherwise push it onto
the central queue. -/
def JobSystem.schedule (jid : Nat) (ti : Int) (s : Queues) : Queues :=
  if 0 ≤ ti ∧ ti < (s.locals.length : Int) then
    { s with
      locals := s.locals.set ti.toNat (JobQueue.push jid (s.locals.getD ti.toNat [])) }
  else
    { s with central := JobQueue.push jid s.central }

lemma locals_get_getD : ∀ (l : List (List Nat)) (i : Nat), i < l.length →
    l.get? i = some (l.getD i []) := by
  intro l
  induction l with
  | nil => intro i h; exact absurd h (by simp)
  | cons x xs ih =>
    intro i h
    cases i with
    | zero => rfl
    | succ k => exact ih k (by simpa using h)

lemma locals_get_set_self : ∀ (l : List (List Nat)) (i : Nat) (x : List Nat),
    i < l.length → (l.set i x).get? i = some x := by
  intro l
  induction l with
  | nil => intro i x h; exact absurd h (by simp)
  | cons a as ih =>
    intro i x h
    cases i with
    | zero => rfl
    | succ k => exact ih k x (by simpa using h)

lemma locals_get_set_ne : ∀ (l : List (List Nat)) (i k : Nat) (x : List Nat),
    k ≠ i → (l.set i x).get? k = l.get? k := by
  intro l
  induction l with
  | nil => intro i k x _; simp
  | cons a as ih =>
    intro i k x hne
    cases i with
    | zero =>
      cases k with
      | zero => exact absurd rfl hne
      | succ m => rfl
    | succ i0 =>
      cases k with
      | zero => rfl
      | succ m => exact ih i0 m x (fun h => hne (by rw [h]))

/-- C6. Scheduling routing: a work node whose `thread_index` is in range
(at least 0 and strictly below the worker count) is pushed onto exactly that
worker's local inbox, with every other local inbox and the central queue
untouched; a node with a negative or out-of-range index is pushed onto the
central queue, with every local inbox untouched. Exactly one queue receives
the node. -/
theorem jobsystem_schedule_routing (jid : Nat) (ti : Int) (s : Queues) :
    ((0 ≤ ti ∧ ti < (s.locals.length : Int)) →
      (JobSystem.schedule jid ti s).central = s.central ∧
      (∃ old, s.locals.get? ti.toNat = some old ∧
        (JobSystem.schedule jid ti s).locals.get? ti.toNat = some (JobQueue.push jid old)) ∧
      (∀ k, k ≠ ti.toNat →
        (JobSystem.schedule jid ti s).locals.get? k = s.locals.get? k)) ∧
    (¬(0 ≤ ti ∧ ti < (s.locals.length : Int)) →
      (JobSystem.schedule jid ti s).locals = s.locals ∧
      (JobSystem.schedule jid ti s).central = JobQueue.push jid s.central) := by
  constructor
  · intro hin
    have hlt : ti.toNat < s.locals.length := by omega
    refine ⟨?_, ⟨s.locals.getD ti.toNat [], locals_get_getD s.locals ti.toNat hlt, ?_⟩, ?_⟩
    · simp [JobSystem.schedule, if_pos hin]
    · simp only [JobSystem.schedule, if_pos hin]
      exact locals_get_set_self s.locals ti.toNat _ hlt
    · intro k hk
      simp only [JobSystem.schedule, if_pos hin]
      exact locals_get_set_ne s.locals ti.toNat k _ hk
  · intro hout
    constructor <;> simp [JobSystem.schedule, if_neg hout]

/-- Witness for C6: a system with two workers; thread index 1 is in range and
routes to inbox 1; thread index 5 is out of range and routes to central. -/
theorem jobsystem_schedule_routing_witness :
    ((0 ≤ (1 : Int) ∧ (1 : Int) < ((Queues.mk [[], []] []).locals.length : Int)) ∧
      ((JobSystem.schedule 7 1 (Queues.mk [[], []] [])).central
          = (Queues.mk [[], []] []).central ∧
       (∃ old, (Queues.mk [[], []] []).locals.get? (1 : Int).toNat = some old ∧
         (JobSystem.schedule 7 1 (Queues.mk [[], []] [])).locals.get? (1 : Int).toNat
             = some (JobQueue.push 7 old)) ∧
       (∀ k, k ≠ (1 : Int).toNat →
         (JobSystem.schedule 7 1 (Queues.mk [[], []] [])).locals.get? k
             = (Queues.mk [[], []] []).locals.get? k))) ∧
    ((JobSystem.schedule 7 5 (Queues.mk [[], []] [])).locals
        = (Queues.mk [[], []] []).locals ∧
     (JobSystem.schedule 7 5 (Queues.mk [[], []] [])).central
        = JobQueue.push 7 (Queues.mk [[], []] []).central) :=
  ⟨⟨by decide, (jobsystem_schedule_routing 7 1 (Queues.mk [[], []] [])).1 (by decide)⟩,
   (jobsystem_schedule_routing 7 5 (Queues.mk [[], []] [])).2 (by decide)⟩

/-- The state touched by the migration awaiter `awaitable_resume_on` (VECoro.h
lines 318-358): the awaiting promise's `m_thread_index` and `m_children`, its
parent's `m_children`, and the system queues the promise can be pushed onto. -/
structure ResumeOnSt where
  threadIndex : Int
  children : Int
  parentChildren : Int
  queues : Queues
deriving DecidableEq, Repr

/-- `awaitable_resume_on::awaiter::await_ready` (VECoro.h lines 326-328):
ready exactly when the target worker index equals the index of the worker the
caller is currently running on. Modelled from the spec: the accessor
`JobSystem::thread_index()` called here is absent from src/ and is taken, per
the spec, to return the current worker's index (`cur`). -/
def awaitable_resume_on.await_ready (target cur : Int) : Bool :=
  target == cur

/-- `awaitable_resume_on::awaiter::await_suspend` (VECoro.h lines 334-337):
set the promise's `m_thread_index` to the target worker and hand the promise
itself back to `JobSystem::schedule`; no children counter is touched. -/
def awaitable_resume_on.await_suspend (target : Int) (pid : Nat) (s : ResumeOnSt) :
    ResumeOnSt :=
  { s with threadIndex := target,
           queues := JobSystem.schedule pid target s.queues }

/-- C7. Migration awaiter: awaiting a migration to `worker_index` is ready
(does not suspend) if and only if the caller already runs on that worker; on
suspension the promise's `thread_index` becomes the target and the promise
itself is re-enqueued through `JobSystem::schedule` under that index, while
neither the promise's own `children` counter nor the parent's `children`
counter changes. -/
theorem migration_awaiter_spec (target cur : Int) (pid : Nat) (s : ResumeOnSt) :
    (awaitable_resume_on.await_ready target cur = true ↔ cur = target) ∧
    (awaitable_resume_on.await_suspend target pid s).threadIndex = target ∧
    (awaitable_resume_on.await_suspend target pid s).children = s.children ∧
    (awaitable_resume_on.await_suspend target pid s).parentChildren = s.parentChildren ∧
    (awaitable_resume_on.await_suspend target pid s).queues
        = JobSystem.schedule pid target s.queues := by
  refine ⟨?_, rfl, rfl, rfl, rfl⟩
  simp only [awaitable_resume_on.await_ready, beq_iff_eq]
  exact ⟨fun h => h.symm, fun h => h.symm⟩

/-- The state touched when a task awaits children: the awaiting promise's
`m_children` counter and the multiset of children already handed to the job
system's queues, each recorded with the parent written into its `m_parent`
field (child id, parent id). -/
structure AwaitSt where
  counter : Int
  queue : List (Nat × Nat)
deriving DecidableEq, Repr

/-- One observable action of scheduling children under a parent, in program
order: `addChildren n` is the `fetch_add(n)` on the awaiting promise's
`m_children`; `enqueue c` hands child `c` (with its `m_parent` already set to
the promise) to `JobSystem::schedule`, which never touches the counter. -/
inductive SchedEv
  | addChildren (n : Int)
  | enqueue (child : Nat)
deriving DecidableEq, Repr

/-- The CORO overload of `schedule` (VECoro.h lines 55-63) with a non-null
parent: `fetch_add(children)` on the parent's counter, write the parent into
the coro promise's `m_parent`, then hand the promise to
`JobSystem::schedule`. -/
def schedule_coro (pid cid : Nat) (n : Int) (s : AwaitSt) : AwaitSt × List SchedEv :=
  (AwaitSt.mk (s.counter + n) (s.queue ++ [(cid, pid)]),
   [SchedEv.addChildren n, SchedEv.enqueue cid])

/-- Modelled from the spec: the vector overload of `schedule` called by
`awaitable_tuple::awaiter::await_suspend` (VECoro.h line 225) is absent from
src/; per the spec it adds the given `children` count to the awaiting
promise's counter once, before enqueuing anything, and then schedules every
element of the vector with `parent = this promise`. -/
def schedule_vec (pid : Nat) (cids : List Nat) (n : Int) (s : AwaitSt) :
    AwaitSt × List SchedEv :=
  (AwaitSt.mk (s.counter + n) (s.queue ++ cids.map (fun c => (c, pid))),
   SchedEv.addChildren n :: cids.map SchedEv.enqueue)

/-- Total number of children across all vectors of the awaited tuple, as
counted by `awaitable_tuple::awaiter::await_ready` (VECoro.h lines 212-218). -/
def tupleCount (vecs : List (List Nat)) : Int :=
  ((vecs.map List.length).sum : Nat)

/-- `awaitable_tuple::awaiter::await_ready` (VECoro.h lines 212-218): ready
(no suspension) exactly when the tuple holds no children at all. -/
def awaitable_tuple.await_ready (vecs : List (List Nat)) : Bool :=
  tupleCount vecs == 0

/-- The fold inside `awaitable_tuple::awaiter::await_suspend` (VECoro.h lines
223-234): schedule each vector in turn, passing the total child count
`m_number` to the first call and 0 to every later call. -/
def awaitable_tuple.go (pid : Nat) : List (List Nat) → Int → AwaitSt →
    AwaitSt × List SchedEv
  | [], _, s => (s, [])
  | v :: vs, n, s =>
    let p := schedule_vec pid v n s
    let q := awaitable_tuple.go pid vs 0 p.1
    (q.1, p.2 ++ q.2)

/-- `awaitable_tuple::awaiter::await_suspend` (VECoro.h lines 223-234). -/
def awaitable_tuple.await_suspend (pid : Nat) (vecs : List (List Nat)) (s : AwaitSt) :
    AwaitSt × List SchedEv :=
  awaitable_tuple.go pid vecs (tupleCount vecs) s

/-- `awaitable_coro::awaiter::await_suspend` (VECoro.h lines 287-289) for a
single Coro child: forwards to the CORO `schedule` overload with its default
`children = 1`. -/
def awaitable_coro.await_suspend (pid cid : Nat) (s : AwaitSt) :
    AwaitSt × List SchedEv :=
  schedule_coro pid cid 1 s

/-- The awaiting promise's `m_children` value after a prefix of the event
trace: only the `fetch_add` events change it; handing a child to a queue does
not. -/
def counterAfterEvents (c : Int) (evs : List SchedEv) : Int :=
  evs.foldl
    (fun c ev => match ev with
      | SchedEv.addChildren n => c + n
      | SchedEv.enqueue _ => c) c

lemma counterAfterEvents_nil (c : Int) : counterAfterEvents c [] = c := rfl

lemma counterAfterEvents_cons (c : Int) (ev : SchedEv) (evs : List SchedEv) :
    counterAfterEvents c (ev :: evs)
      = counterAfterEvents
          (match ev with
           | SchedEv.addChildren n => c + n
           | SchedEv.enqueue _ => c) evs := rfl

/-- If every `fetch_add` in the trace adds 0, the counter never moves. -/
lemma counterAfterEvents_zeros : ∀ (t : List SchedEv),
    (∀ m, SchedEv.addChildren m ∈ t → m = 0) →
    ∀ (k : Nat) (c : Int), counterAfterEvents c (t.take k) = c := by
  intro t
  induction t with
  | nil => intro _ k c; simp [counterAfterEvents]
  | cons ev t0 ih =>
    intro hz k c
    cases k with
    | zero => rfl
    | succ k0 =>
      rw [List.take_succ_cons, counterAfterEvents_cons]
      have ht0 : ∀ m, SchedEv.addChildren m ∈ t0 → m = 0 :=
        fun m hm => hz m (List.mem_cons_of_mem ev hm)
      cases ev with
      | addChildren m =>
        have hm0 : m = 0 := hz m (List.mem_cons_self _ _)
        subst hm0
        simpa using ih ht0 k0 c
      | enqueue _ => exact ih ht0 k0 c

lemma go_cons (pid : Nat) (v : List Nat) (vs : List (List Nat)) (n : Int) (s : AwaitSt) :
    awaitable_tuple.go pid (v :: vs) n s
      = ((awaitable_tuple.go pid vs 0 (schedule_vec pid v n s).1).1,
         (schedule_vec pid v n s).2
           ++ (awaitable_tuple.go pid vs 0 (schedule_vec pid v n s).1).2) := rfl

lemma go_counter (pid : Nat) : ∀ (vs : List (List Nat)) (n : Int) (s : AwaitSt),
    vs ≠ [] → (awaitable_tuple.go pid vs n s).1.counter = s.counter + n := by
  intro vs
  induction vs with
  | nil => intro n s h; exact absurd rfl h
  | cons v vs0 ih =>
    intro n s _
    cases vs0 with
    | nil =>
      simp [awaitable_tuple.go, schedule_vec]
    | cons w ws =>
      rw [go_cons]
      rw [ih 0 (schedule_vec pid v n s).1 (by simp)]
      simp [schedule_vec]

lemma go_queue (pid : Nat) : ∀ (vs : List (List Nat)) (n : Int) (s : AwaitSt),
    (awaitable_tuple.go pid vs n s).1.queue
      = s.queue ++ vs.flatten.map (fun c => (c, pid)) := by
  intro vs
  induction vs with
  | nil => intro n s; simp [awaitable_tuple.go]
  | cons v vs0 ih =>
    intro n s
    rw [go_cons]
    rw [ih 0 (schedule_vec pid v n s).1]
    simp [schedule_vec]

/-- Extract the children handed to queues from the event trace, in order. -/
def enqueuedOf (evs : List SchedEv) : List Nat :=
  evs.filterMap
    (fun ev => match ev with
      | SchedEv.enqueue c => some c
      | SchedEv.addChildren _ => none)

lemma enqueuedOf_append (a b : List SchedEv) :
    enqueuedOf (a ++ b) = enqueuedOf a ++ enqueuedOf b := by
  simp [enqueuedOf]

lemma enqueuedOf_map_enqueue (cids : List Nat) :
    enqueuedOf (cids.map SchedEv.enqueue) = cids := by
  induction cids with
  | nil => rfl
  | cons c cs ih => simp [enqueuedOf] at ih ⊢; exact ih

lemma go_events (pid : Nat) : ∀ (vs : List (List Nat)) (n : Int) (s : AwaitSt),
    vs ≠ [] → ∃ tail, (awaitable_tuple.go pid vs n s).2 = SchedEv.addChildren n :: tail ∧
      (∀ m, SchedEv.addChildren m ∈ tail → m = 0) ∧
      enqueuedOf tail = vs.flatten := by
  intro vs
  induction vs with
  | nil => intro n s h; exact absurd rfl h
  | cons v vs0 ih =>
    intro n s _
    cases vs0 with
    | nil =>
      refine ⟨v.map SchedEv.enqueue, ?_, ?_, ?_⟩
      · simp [awaitable_tuple.go, schedule_vec]
      · intro m hm
        exfalso
        rcases List.mem_map.mp hm with ⟨c, _, hc⟩
        exact SchedEv.noConfusion hc
      · rw [enqueuedOf_map_enqueue]
        simp
    | cons w ws =>
      obtain ⟨tail0, hev, hz, hq⟩ :=
        ih 0 (schedule_vec pid v n s).1 (by simp)
      refine ⟨v.map SchedEv.enqueue ++ (SchedEv.addChildren 0 :: tail0), ?_, ?_, ?_⟩
      · rw [go_cons, hev]
        simp [schedule_vec]
      · intro m hm
        rcases List.mem_append.mp hm with hmem | hmem
        · exfalso
          rcases List.mem_map.mp hmem with ⟨c, _, hc⟩
          exact SchedEv.noConfusion hc
        · rcases List.mem_cons.mp hmem with heq | hmem0
          · exact (SchedEv.addChildren.injEq m 0).mp heq
          · exact hz m hmem0
      · rw [enqueuedOf_append, enqueuedOf_map_enqueue]
        have h0 : enqueuedOf (SchedEv.addChildren 0 :: tail0) = enqueuedOf tail0 := by
          simp [enqueuedOf]
        rw [h0, hq]
        simp

/-- C2. Precomputed-N child accounting: awaiting a single Coro child adds 1 to
the awaiting promise's `children` counter before the child is handed to a
queue and records the promise as the child's parent; awaiting a non-empty
tuple of vectors first adds the total child count N to the counter (the first
event of the trace), enqueues every child of every vector with the promise as
parent, performs no further counter change in the remaining trace (every later
`fetch_add` adds 0, and `JobSystem::schedule` never touches the counter), and
so after the initial add the counter stays at its incremented value while the
children are handed out — it is never decremented before the matching
pre-schedule increment. -/
theorem await_children_precomputed_accounting :
    (∀ (pid cid : Nat) (s : AwaitSt),
      awaitable_coro.await_suspend pid cid s
        = (AwaitSt.mk (s.counter + 1) (s.queue ++ [(cid, pid)]),
           [SchedEv.addChildren 1, SchedEv.enqueue cid])) ∧
    (∀ (pid : Nat) (vecs : List (List Nat)) (s : AwaitSt),
      awaitable_tuple.await_ready vecs = false →
      (awaitable_tuple.await_suspend pid vecs s).1.counter = s.counter + tupleCount vecs ∧
      (awaitable_tuple.await_suspend pid vecs s).1.queue
          = s.queue ++ vecs.flatten.map (fun c => (c, pid)) ∧
      (∃ tail, (awaitable_tuple.await_suspend pid vecs s).2
            = SchedEv.addChildren (tupleCount vecs) :: tail ∧
        (∀ m, SchedEv.addChildren m ∈ tail → m = 0) ∧
        enqueuedOf tail = vecs.flatten) ∧
      (∀ k, 1 ≤ k →
        counterAfterEvents s.counter ((awaitable_tuple.await_suspend pid vecs s).2.take k)
          = s.counter + tupleCount vecs)) := by
  constructor
  · intro pid cid s
    rfl
  · intro pid vecs s hnr
    have hne : vecs ≠ [] := by
      intro h
      subst h
      simp [awaitable_tuple.await_ready, tupleCount] at hnr
    obtain ⟨tail, hev, hz, hq⟩ := go_events pid vecs (tupleCount vecs) s hne
    refine ⟨go_counter pid vecs (tupleCount vecs) s hne,
            go_queue pid vecs (tupleCount vecs) s,
            ⟨tail, hev, hz, hq⟩, ?_⟩
    intro k hk
    rw [show (awaitable_tuple.await_suspend pid vecs s).2
        = (awaitable_tuple.go pid vecs (tupleCount vecs) s).2 from rfl, hev]
    cases k with
    | zero => omega
    | succ k0 =>
      rw [List.take_succ_cons, counterAfterEvents_cons]
      simpa using counterAfterEvents_zeros tail hz k0 (s.counter + tupleCount vecs)

/-- Witness for C2: a promise awaiting the tuple of one vector holding the
single child 3, starting from counter 0 and no enqueued children. -/
theorem await_children_precomputed_accounting_witness :
    (awaitable_tuple.await_ready [[3]] = false) ∧
    ((awaitable_tuple.await_suspend 0 [[3]] (AwaitSt.mk 0 [])).1.counter
        = (AwaitSt.mk 0 []).counter + tupleCount [[3]] ∧
     (awaitable_tuple.await_suspend 0 [[3]] (AwaitSt.mk 0 [])).1.queue
        = (AwaitSt.mk 0 []).queue ++ ([[3]] : List (List Nat)).flatten.map (fun c => (c, 0)) ∧
     (∃ tail, (awaitable_tuple.await_suspend 0 [[3]] (AwaitSt.mk 0 [])).2
          = SchedEv.addChildren (tupleCount [[3]]) :: tail ∧
       (∀ m, SchedEv.addChildren m ∈ tail → m = 0) ∧
       enqueuedOf tail = ([[3]] : List (List Nat)).flatten) ∧
     (∀ k, 1 ≤ k →
       counterAfterEvents (AwaitSt.mk 0 []).counter
           ((awaitable_tuple.await_suspend 0 [[3]] (AwaitSt.mk 0 [])).2.take k)
         = (AwaitSt.mk 0 []).counter + tupleCount [[3]])) :=
  ⟨by decide, await_children_precomputed_accounting.2 0 [[3]] (AwaitSt.mk 0 []) (by decide)⟩

/-- The shared result slot of a `Coro<T>` (VECoro.h line 565): the view the
holder reads through `Coro<T>::get`. -/
structure Coro (T : Type) where
  value : Option T
deriving Repr

/-- `Coro<T>::get` (VECoro.h lines 599-601): a non-blocking read of the shared
`std::optional` result slot. -/
def Coro.get {T : Type} (c : Coro T) : Option T :=
  c.value

/-- `Coro_promise<T>::get_return_object` (VECoro.h lines 459-462): the shared
slot handed to the freshly created `Coro<T>` starts out as `std::nullopt`. -/
def Coro_promise.get_return_object (T : Type) : Coro T :=
  Coro.mk none

/-- The writes the coroutine machinery performs on the shared result slot:
`clearOnResume` is the `*m_value = std::nullopt` at the top of
`Coro_promise<T>::resume` (VECoro.h line 468); `storeYield t` is
`yield_value` (line 490); `storeReturn t` is `return_value` (line 482). -/
inductive SlotOp (T : Type)
  | clearOnResume
  | storeYield (t : T)
  | storeReturn (t : T)

/-- Whether a slot operation stores a value (a `co_yield` or a `co_return`). -/
def SlotOp.isStore {T : Type} : SlotOp T → Bool
  | SlotOp.clearOnResume => false
  | SlotOp.storeYield _ => true
  | SlotOp.storeReturn _ => true

/-- Effect of one slot operation on the shared `std::optional`; every
operation overwrites the previous slot value. -/
def applySlotOp {T : Type} (_v : Option T) : SlotOp T → Option T
  | SlotOp.clearOnResume => none
  | SlotOp.storeYield t => some t
  | SlotOp.storeReturn t => some t

/-- Slot value after a sequence of slot operations. -/
def runSlotOps {T : Type} (v : Option T) (ops : List (SlotOp T)) : Option T :=
  ops.foldl applySlotOp v

lemma runSlotOps_no_store {T : Type} : ∀ (ops : List (SlotOp T)),
    ops.all (fun op => ! SlotOp.isStore op) = true → runSlotOps (none : Option T) ops = none := by
  intro ops
  induction ops with
  | nil => intro _; rfl
  | cons op rest ih =>
    intro h
    rw [List.all_cons, Bool.and_eq_true] at h
    cases op with
    | clearOnResume => exact ih h.2
    | storeYield t => exact absurd h.1 (by simp [SlotOp.isStore])
    | storeReturn t => exact absurd h.1 (by simp [SlotOp.isStore])

/-- C8. Non-blocking get: the shared slot of a freshly created task is empty,
and for every task whose body has not stored a value since the last resume
cleared the slot (no `co_yield` and no `co_return` among the operations after
the clear), `Coro<T>::get` returns the empty optional — a normal, non-error
state, with no blocking read anywhere in `get`. -/
theorem coro_get_nonblocking_empty (T : Type) (post : List (SlotOp T))
    (hns : post.all (fun op => ! SlotOp.isStore op) = true) :
    Coro.get (Coro_promise.get_return_object T) = none ∧
    ∀ v : Option T, Coro.get (Coro.mk (runSlotOps v (SlotOp.clearOnResume :: post))) = none := by
  refine ⟨rfl, ?_⟩
  intro v
  have hstep : runSlotOps v (SlotOp.clearOnResume :: post)
      = runSlotOps (none : Option T) post := rfl
  rw [show Coro.get (Coro.mk (runSlotOps v (SlotOp.clearOnResume :: post)))
      = runSlotOps v (SlotOp.clearOnResume :: post) from rfl, hstep]
  exact runSlotOps_no_store post hns

/-- Witness for C8: a task over Nat resumed twice with no yield and no return
in between still reads the empty optional. -/
theorem coro_get_nonblocking_empty_witness :
    (([SlotOp.clearOnResume] : List (SlotOp Nat)).all (fun op => ! SlotOp.isStore op) = true) ∧
    (Coro.get (Coro_promise.get_return_object Nat) = none ∧
     ∀ v : Option Nat,
       Coro.get (Coro.mk (runSlotOps v (SlotOp.clearOnResume :: [SlotOp.clearOnResume]))) = none) :=
  ⟨by decide, coro_get_nonblocking_empty Nat [SlotOp.clearOnResume] (by decide)⟩
